import Mathlib

/-!
Verification of the synthetic network generator and benchmark CSV logic of
`src/python/benchmark.py` (PyPSA DC power-flow benchmark scripts).

The pseudo-random generator `np.random.default_rng(seed)` is modelled
abstractly: an `RNG` carries a stream of rationals (one consumed per
`rng.random()` call, each value lying in `[0,1)` for a valid stream) and a
stream of naturals feeding `rng.integers(lo, hi)`.  `integers lo hi` returns
`lo + raw % (hi - lo)` when `lo < hi` — which realises every value of the
half-open range `[lo, hi)` for a suitable raw stream — and `none` when
`lo >= hi`, mirroring numpy's `ValueError: low >= high`.  A theorem proved
for every stream in particular holds for the stream produced by any seed,
and floating-point reals are modelled by exact rationals.
-/

/-- Abstract state of `np.random.default_rng(seed)`: a stream of real draws
(for `rng.random()`) and a stream of raw integer draws (for `rng.integers`),
with a cursor into each. -/
structure RNG where
  reals : Nat → ℚ
  rIdx : Nat
  ints : Nat → Nat
  iIdx : Nat

/-- Model of `rng.random()`: consume one real draw. -/
def RNG.random (g : RNG) : ℚ × RNG :=
  (g.reals g.rIdx, { g with rIdx := g.rIdx + 1 })

/-- Model of `rng.integers(lo, hi)`: a draw from the half-open range
`[lo, hi)`; numpy raises `ValueError` when `lo >= hi`, modelled by `none`. -/
def RNG.integers (g : RNG) (lo hi : Nat) : Option (Nat × RNG) :=
  if lo < hi then
    some (lo + g.ints g.iIdx % (hi - lo), { g with iIdx := g.iIdx + 1 })
  else
    none

/-- A valid stream: every `rng.random()` output lies in `[0, 1)`. -/
def RNG.Valid (g : RNG) : Prop :=
  ∀ k, 0 ≤ g.reals k ∧ g.reals k < 1

/-- A line record `(from_bus, to_bus, reactance)` as appended to `lines`. -/
def Line : Type := Nat × Nat × ℚ

instance : DecidableEq Line := by unfold Line; infer_instance

/-- Endpoints of a line, forgetting the reactance. -/
def Line.ends (l : Line) : Nat × Nat := (l.1, l.2.1)

/-- The spanning-tree pass: `for i in range(1, n_buses): lines.append((i, i+1,
0.05 + rng.random()*0.45))`, as a function of the list of loop indices. -/
def treeLoop : List Nat → RNG → List Line × RNG
  | [], g => ([], g)
  | i :: rest, g =>
    let (r, g1) := g.random
    let (ls, g2) := treeLoop rest g1
    (((i, i + 1, 0.05 + r * 0.45) : Line) :: ls, g2)

/-- The extra-edges pass: `for _ in range(max(1, n_buses // 3)):` draw
`u = rng.integers(1, n_buses)`, `v = rng.integers(u+1, n_buses+1)`, and a
reactance, appending `(u, v, x)`; `k` is the remaining iteration count. -/
def extraLoop : Nat → Nat → RNG → Option (List Line × RNG)
  | 0, _, g => some ([], g)
  | k + 1, n, g =>
    match g.integers 1 n with
    | none => none
    | some (u, g1) =>
      match g1.integers (u + 1) (n + 1) with
      | none => none
      | some (v, g2) =>
        let (r, g3) := g2.random
        match extraLoop k n g3 with
        | none => none
        | some (ls, g4) => some (((u, v, 0.05 + r * 0.45) : Line) :: ls, g4)

/-- The load pass over the listed buses: with probability 0.7
(`rng.random() > 0.3`) assign `p = 50 + rng.random()*450` and add it to the
running total.  Returns the load association list, the accumulated total and
the final RNG state. -/
def loadLoop : List Nat → RNG → List (Nat × ℚ) × ℚ × RNG
  | [], g => ([], 0, g)
  | b :: rest, g =>
    let (r, g1) := g.random
    if r > 0.3 then
      let (r2, g2) := g1.random
      let p : ℚ := 50 + r2 * 450
      let (ls, t, g3) := loadLoop rest g2
      ((b, p) :: ls, p + t, g3)
    else
      loadLoop rest g1

/-- The buses visited by `range(2, n_buses + 1, 4)`: buses `2, 6, 10, ...`
up to `n`. -/
def genBuses (n : Nat) : List Nat :=
  List.range' 2 ((n + 2) / 4) 4

/-- Shallow embedding of `generate_network(n_buses, seed)` from
`src/python/benchmark.py`.  Returns `(n_buses, lines, generators, loads)`;
`none` models an uncaught `ValueError` from `rng.integers`. -/
def generate_network (n : Nat) (g : RNG) :
    Option (Nat × List Line × List (Nat × ℚ) × List (Nat × ℚ)) :=
  let (tree, g1) := treeLoop (List.range' 1 (n - 1)) g
  match extraLoop (max 1 (n / 3)) n g1 with
  | none => none
  | some (extra, g2) =>
    let lines := tree ++ extra
    let (loads0, total0, _g3) := loadLoop (List.range' 2 (n - 1)) g2
    let (loads, total_load) :=
      if loads0.isEmpty then ([((2 : Nat), (200 : ℚ))], (200 : ℚ))
      else (loads0, total0)
    let generators : List (Nat × ℚ) :=
      ((1 : Nat), total_load * 1.1) ::
        (genBuses n).map (fun b => (b, ((loads.lookup b).getD 0) * 0.5 + 50))
    some (n, lines, generators, loads)

/-- A concrete all-zero stream, standing in for one particular seed. -/
def rng0 : RNG := ⟨fun _ => 0, 0, fun _ => 0, 0⟩

/-- Undirected reachability along the line list: lines may be traversed in
either direction, as a DC power-flow graph is undirected. -/
inductive Reach (lines : List Line) : Nat → Nat → Prop
  | refl (a : Nat) : Reach lines a a
  | fwd {a b c : Nat} {x : ℚ} : Reach lines a b → ((b, c, x) : Line) ∈ lines →
      Reach lines a c
  | bwd {a b c : Nat} {x : ℚ} : Reach lines a b → ((c, b, x) : Line) ∈ lines →
      Reach lines a c

/-- The value of `generate_network(2)` on the all-zero stream, used as a
concrete check vector. -/
def net2 : Nat × List Line × List (Nat × ℚ) × List (Nat × ℚ) :=
  (2, [(1, 2, 1/20), (1, 2, 1/20)], [(1, 220), (2, 150)], [(2, 200)])

/-! ### The benchmark main block: sizes, timing and the CSV table

The wall-clock measurement `time.perf_counter()` cannot be modelled, so a
run's duration (in seconds) is an oracle `meas module n_buses run_index`;
everything downstream of the measurements is embedded faithfully. -/

/-- The sizes `DC_SIZES = [3, 10, 50, 100, 500, 1000, 2000]`. -/
def DC_SIZES : List Nat := [3, 10, 50, 100, 500, 1000, 2000]

/-- The sizes `LOPF_SIZES = [3, 10, 50, 100, 500]`. -/
def LOPF_SIZES : List Nat := [3, 10, 50, 100, 500]

/-- Model of `statistics.median`: sort ascending; middle element for odd
length, mean of the two middle elements for even length. -/
def median (xs : List ℚ) : ℚ :=
  let s := List.insertionSort (fun a b : ℚ => a ≤ b) xs
  let k := xs.length
  if k % 2 = 1 then s.getD (k / 2) 0
  else (s.getD (k / 2 - 1) 0 + s.getD (k / 2) 0) / 2

/-- Model of `time_median(func, n_runs)` applied to the list of measured
run times: returns `(statistics.median(times), min(times))`. -/
def time_median (times : List ℚ) : ℚ × ℚ :=
  (median times, (times.min?).getD 0)

/-- The measured times of the `n_runs` repetitions of one benchmark cell. -/
def runTimes (meas : String → Nat → Nat → ℚ) (m : String) (n runs : Nat) :
    List ℚ :=
  (List.range runs).map (meas m n)

/-- The run count `50 if n <= 100 else (10 if n <= 500 else 3)` for DC power flow. -/
def dcRuns (n : Nat) : Nat := if n ≤ 100 then 50 else if n ≤ 500 then 10 else 3

/-- The run count `10 if n <= 50 else (5 if n <= 100 else 3)` for LOPF. -/
def lopfRuns (n : Nat) : Nat := if n ≤ 50 then 10 else if n ≤ 100 then 5 else 3

/-- The `dc_results` dict: the DC loop stores `med * 1000` under key `n`,
in iteration order. -/
def dc_results (meas : String → Nat → Nat → ℚ) : List (Nat × ℚ) :=
  DC_SIZES.foldl
    (fun acc n =>
      acc ++ [(n, (time_median (runTimes meas "DC_PF" n (dcRuns n))).1 * 1000)])
    []

/-- The `lopf_results` dict: the LOPF loop stores `med * 1000` under key `n`. -/
def lopf_results (meas : String → Nat → Nat → ℚ) : List (Nat × ℚ) :=
  LOPF_SIZES.foldl
    (fun acc n =>
      acc ++ [(n, (time_median (runTimes meas "LOPF" n (lopfRuns n))).1 * 1000)])
    []

/-- One CSV cell, before string formatting. -/
inductive Cell where
  | str : String → Cell
  | nat : Nat → Cell
  | rat : ℚ → Cell

/-- The rows written to `results/python_benchmark.csv`: the header, then one
row per DC size reading `dc_results[n]`, then one row per LOPF size reading
`lopf_results[n]`. -/
def csvRows (meas : String → Nat → Nat → ℚ) : List (List Cell) :=
  [Cell.str "module", Cell.str "n_buses", Cell.str "time_ms"] ::
    (DC_SIZES.map (fun n =>
        [Cell.str "DC_PF", Cell.nat n, Cell.rat (((dc_results meas).lookup n).getD 0)]) ++
      LOPF_SIZES.map (fun n =>
        [Cell.str "LOPF", Cell.nat n, Cell.rat (((lopf_results meas).lookup n).getD 0)]))

/-- The CSV table as the spec describes it: header `module,n_buses,time_ms`,
then exactly one row per (module, size) pair — every DC size in order, then
every LOPF size in order — whose time cell is the median of that cell's
measured run times converted to milliseconds. -/
def specCsvRows (meas : String → Nat → Nat → ℚ) : List (List Cell) :=
  [Cell.str "module", Cell.str "n_buses", Cell.str "time_ms"] ::
    (DC_SIZES.map (fun n =>
        [Cell.str "DC_PF", Cell.nat n,
          Cell.rat (median (runTimes meas "DC_PF" n (dcRuns n)) * 1000)]) ++
      LOPF_SIZES.map (fun n =>
        [Cell.str "LOPF", Cell.nat n,
          Cell.rat (median (runTimes meas "LOPF" n (lopfRuns n)) * 1000)]))

/-! ### Lemmas about the spanning-tree pass -/

lemma treeLoop_ends (idxs : List Nat) (g : RNG) :
    ((treeLoop idxs g).1).map Line.ends = idxs.map (fun i => (i, i + 1)) := by
  induction idxs generalizing g with
  | nil => rfl
  | cons i rest ih =>
      simp only [treeLoop, RNG.random, List.map_cons, Line.ends, ih]

lemma treeLoop_length (idxs : List Nat) (g : RNG) :
    ((treeLoop idxs g).1).length = idxs.length := by
  have h := congrArg List.length (treeLoop_ends idxs g)
  simpa using h

lemma treeLoop_mem_ends {idxs : List Nat} {g : RNG} {l : Line}
    (hl : l ∈ (treeLoop idxs g).1) : ∃ i ∈ idxs, Line.ends l = (i, i + 1) := by
  have : Line.ends l ∈ ((treeLoop idxs g).1).map Line.ends := List.mem_map_of_mem _ hl
  rw [treeLoop_ends] at this
  rcases List.mem_map.mp this with ⟨i, hi, hie⟩
  exact ⟨i, hi, hie.symm⟩

lemma treeLoop_edge_mem {idxs : List Nat} {g : RNG} {i : Nat} (hi : i ∈ idxs) :
    ∃ x, ((i, i + 1, x) : Line) ∈ (treeLoop idxs g).1 := by
  have : ((i, i + 1) : Nat × Nat) ∈ ((treeLoop idxs g).1).map Line.ends := by
    rw [treeLoop_ends]
    exact List.mem_map_of_mem _ hi
  rcases List.mem_map.mp this with ⟨l, hl, hle⟩
  rcases l with ⟨a, b, x⟩
  simp only [Line.ends, Prod.mk.injEq] at hle
  rw [hle.1, hle.2] at hl
  exact ⟨x, hl⟩

/-! ### Lemmas about the extra-edges pass -/

lemma RNG.integers_pos {g : RNG} {lo hi : Nat} (h : lo < hi) :
    g.integers lo hi =
      some (lo + g.ints g.iIdx % (hi - lo), { g with iIdx := g.iIdx + 1 }) := by
  simp [RNG.integers, h]

lemma RNG.integers_bound {g : RNG} {lo hi : Nat} (h : lo < hi) :
    lo ≤ lo + g.ints g.iIdx % (hi - lo) ∧ lo + g.ints g.iIdx % (hi - lo) < hi := by
  have := Nat.mod_lt (g.ints g.iIdx) (Nat.sub_pos_of_lt h)
  omega

lemma extraLoop_isSome (k n : Nat) (g : RNG) (hn : 2 ≤ n) :
    (extraLoop k n g).isSome := by
  induction k generalizing g with
  | zero => rfl
  | succ k ih =>
      have h1 : (1 : Nat) < n := by omega
      have e1 := RNG.integers_pos (g := g) h1
      have hb1 := RNG.integers_bound (g := g) h1
      have h2 : (1 + g.ints g.iIdx % (n - 1)) + 1 < n + 1 := by omega
      have e2 := RNG.integers_pos (g := { g with iIdx := g.iIdx + 1 }) h2
      simp only [extraLoop, e1, e2]
      rcases Option.isSome_iff_exists.mp
          (ih ({ g with iIdx := g.iIdx + 1 + 1 } : RNG).random.2) with ⟨⟨ls, g4⟩, hih⟩
      rw [hih]
      rfl

lemma extraLoop_length {k n : Nat} {g g' : RNG} {ls : List Line}
    (h : extraLoop k n g = some (ls, g')) : ls.length = k := by
  induction k generalizing g ls g' with
  | zero =>
      simp only [extraLoop, Option.some.injEq, Prod.mk.injEq] at h
      simp [← h.1]
  | succ k ih =>
      simp only [extraLoop] at h
      split at h
      · simp at h
      · split at h
        · simp at h
        · split at h
          · simp at h
          · rename_i heq3
            simp only [Option.some.injEq, Prod.mk.injEq] at h
            rw [← h.1]
            simp [ih heq3]

lemma extraLoop_bounds {k n : Nat} {g g' : RNG} {ls : List Line}
    (h : extraLoop k n g = some (ls, g')) :
    ∀ l ∈ ls, 1 ≤ l.1 ∧ l.1 < l.2.1 ∧ l.2.1 ≤ n := by
  induction k generalizing g ls g' with
  | zero =>
      simp only [extraLoop, Option.some.injEq, Prod.mk.injEq] at h
      simp [← h.1]
  | succ k ih =>
      simp only [extraLoop] at h
      split at h
      · simp at h
      · rename_i u g1 heq1
        split at h
        · simp at h
        · rename_i v g2 heq2
          split at h
          · simp at h
          · rename_i heq3
            simp only [Option.some.injEq, Prod.mk.injEq] at h
            intro l hl
            rw [← h.1] at hl
            rcases List.mem_cons.mp hl with hfirst | hrest
            · subst hfirst
              simp only [RNG.integers] at heq1 heq2
              split at heq1
              · rename_i hlt1
                simp only [Option.some.injEq, Prod.mk.injEq] at heq1
                split at heq2
                · rename_i hlt2
                  simp only [Option.some.injEq, Prod.mk.injEq] at heq2
                  have hu : u = 1 + g.ints g.iIdx % (n - 1) := heq1.1.symm
                  have hub : u < n := by
                    have := Nat.mod_lt (g.ints g.iIdx) (y := n - 1) (by omega)
                    omega
                  have hv : v = u + 1 + g1.ints g1.iIdx % (n + 1 - (u + 1)) :=
                    heq2.1.symm
                  have hvb : v < n + 1 := by
                    have := Nat.mod_lt (g1.ints g1.iIdx)
                      (y := n + 1 - (u + 1)) (by omega)
                    omega
                  refine ⟨by omega, by simp [hu]; omega, by simp; omega⟩
                · simp at heq2
              · simp at heq1
            · exact ih heq3 l hrest

/-! ### Lemmas about the load pass -/

lemma loadLoop_total (bs : List Nat) (g : RNG) :
    (loadLoop bs g).2.1 = (((loadLoop bs g).1).map Prod.snd).sum := by
  induction bs generalizing g with
  | nil => simp [loadLoop]
  | cons b rest ih =>
      simp only [loadLoop, RNG.random]
      split
      · simp [ih]
      · exact ih _

lemma loadLoop_load_ge {bs : List Nat} {g : RNG} (hg : ∀ k, 0 ≤ g.reals k) :
    ∀ pb ∈ (loadLoop bs g).1, (50 : ℚ) ≤ pb.2 := by
  induction bs generalizing g with
  | nil => simp [loadLoop]
  | cons b rest ih =>
      simp only [loadLoop, RNG.random]
      split
      · intro pb hpb
        rcases List.mem_cons.mp hpb with hfirst | hrest
        · subst hfirst
          have h0 : (0 : ℚ) ≤ g.reals (g.rIdx + 1) := hg _
          have : (0 : ℚ) ≤ g.reals (g.rIdx + 1) * 450 := by positivity
          simp only
          linarith
        · exact ih (g := { g with rIdx := g.rIdx + 1 + 1 }) hg pb hrest
      · exact fun pb hpb => ih (g := { g with rIdx := g.rIdx + 1 }) hg pb hpb

/-! ### Unfolding `generate_network` through its passes -/

lemma generate_network_unfold
    {n : Nat} {g : RNG} {tree : List Line} {g1 : RNG} {extra : List Line}
    {g2 : RNG} {loads0 : List (Nat × ℚ)} {total0 : ℚ} {g3 : RNG}
    (h1 : treeLoop (List.range' 1 (n - 1)) g = (tree, g1))
    (h2 : extraLoop (max 1 (n / 3)) n g1 = some (extra, g2))
    (h3 : loadLoop (List.range' 2 (n - 1)) g2 = (loads0, total0, g3)) :
    generate_network n g =
      some (n, tree ++ extra,
        ((1 : Nat), (if loads0.isEmpty then (200 : ℚ) else total0) * 1.1) ::
          (genBuses n).map (fun b =>
            (b, (((if loads0.isEmpty then [((2 : Nat), (200 : ℚ))] else loads0).lookup b).getD 0)
              * 0.5 + 50)),
        if loads0.isEmpty then [((2 : Nat), (200 : ℚ))] else loads0) := by
  unfold generate_network
  simp only [h1, h2, h3]
  by_cases hE : loads0.isEmpty <;> simp [hE]

/-! ### RNG-state bookkeeping and remaining helper lemmas -/

lemma treeLoop_reals (idxs : List Nat) (g : RNG) :
    ((treeLoop idxs g).2).reals = g.reals := by
  induction idxs generalizing g with
  | nil => rfl
  | cons i rest ih => simpa [treeLoop, RNG.random] using ih _

lemma extraLoop_reals {k n : Nat} {g g' : RNG} {ls : List Line}
    (h : extraLoop k n g = some (ls, g')) : g'.reals = g.reals := by
  induction k generalizing g ls g' with
  | zero =>
      simp only [extraLoop, Option.some.injEq, Prod.mk.injEq] at h
      rw [← h.2]
  | succ k ih =>
      simp only [extraLoop] at h
      split at h
      · simp at h
      · rename_i u g1 heq1
        split at h
        · simp at h
        · rename_i v g2 heq2
          split at h
          · simp at h
          · rename_i heq3
            simp only [Option.some.injEq, Prod.mk.injEq] at h
            rw [← h.2]
            have e3 := ih heq3
            simp only [RNG.integers] at heq1 heq2
            split at heq1
            · simp only [Option.some.injEq, Prod.mk.injEq] at heq1
              split at heq2
              · simp only [Option.some.injEq, Prod.mk.injEq] at heq2
                rw [e3, ← heq2.2, ← heq1.2]
                rfl
              · simp at heq2
            · simp at heq1

lemma genBuses_mem {n b : Nat} : b ∈ genBuses n ↔ ∃ k, b = 2 + 4 * k ∧ b ≤ n := by
  unfold genBuses
  rw [List.mem_range']
  constructor
  · rintro ⟨i, hi, rfl⟩
    exact ⟨i, rfl, by omega⟩
  · rintro ⟨k, rfl, hk⟩
    exact ⟨k, by omega, rfl⟩

lemma lookup_map_self {bs : List Nat} {f : Nat → ℚ} {b : Nat} (hb : b ∈ bs) :
    (bs.map (fun a => (a, f a))).lookup b = some (f b) := by
  induction bs with
  | nil => simp at hb
  | cons a rest ih =>
      rcases List.mem_cons.mp hb with rfl | h
      · simp [List.lookup]
      · by_cases hab : b = a
        · subst hab
          simp [List.lookup]
        · simpa [List.lookup_cons, beq_false_of_ne hab] using ih h

lemma reach_along_path {lines : List Line} {n : Nat}
    (htree : ∀ i, 1 ≤ i → i + 1 ≤ n → ∃ x, ((i, i + 1, x) : Line) ∈ lines) :
    ∀ v, 1 ≤ v → v ≤ n → Reach lines 1 v := by
  intro v
  induction v with
  | zero => intro h1 _; exact absurd h1 (by omega)
  | succ v ih =>
      intro _ h2
      by_cases hv : v = 0
      · subst hv
        exact Reach.refl 1
      · have hv1 : 1 ≤ v := by omega
        rcases htree v hv1 h2 with ⟨x, hx⟩
        exact Reach.fwd (ih hv1 (by omega)) hx

/-- Every successful run of `generate_network` factors through its three
passes, and the result is determined by their outputs. -/
lemma generate_network_dest (n : Nat) (g : RNG) (hn : 2 ≤ n)
    (r : Nat × List Line × List (Nat × ℚ) × List (Nat × ℚ))
    (hr : generate_network n g = some r) :
    ∃ tree g1 extra g2 loads0 total0 g3,
      treeLoop (List.range' 1 (n - 1)) g = (tree, g1) ∧
      extraLoop (max 1 (n / 3)) n g1 = some (extra, g2) ∧
      loadLoop (List.range' 2 (n - 1)) g2 = (loads0, total0, g3) ∧
      r = (n, tree ++ extra,
        ((1 : Nat), (if loads0.isEmpty then (200 : ℚ) else total0) * 1.1) ::
          (genBuses n).map (fun b =>
            (b, (((if loads0.isEmpty then [((2 : Nat), (200 : ℚ))] else loads0).lookup b).getD 0)
              * 0.5 + 50)),
        if loads0.isEmpty then [((2 : Nat), (200 : ℚ))] else loads0) := by
  rcases htr : treeLoop (List.range' 1 (n - 1)) g with ⟨tree, g1⟩
  rcases Option.isSome_iff_exists.mp (extraLoop_isSome (max 1 (n / 3)) n g1 hn)
    with ⟨⟨extra, g2⟩, hex⟩
  rcases hld : loadLoop (List.range' 2 (n - 1)) g2 with ⟨loads0, total0, g3⟩
  have h := generate_network_unfold htr hex hld
  rw [hr] at h
  exact ⟨tree, g1, extra, g2, loads0, total0, g3, rfl, hex, hld,
    Option.some_inj.mp h⟩

/-- The concrete check: on the all-zero stream, `generate_network 2`
returns `net2`. -/
lemma generate_network_two_eq : generate_network 2 rng0 = some net2 := by
  norm_num [generate_network, treeLoop, extraLoop, loadLoop, RNG.random, RNG.integers,
    rng0, net2, genBuses, List.range', List.lookup]

/-! ### Claim theorems -/

/-- C1 (amended): `generate_network` is total for every `n ≥ 2` and
every stream — it returns a 4-tuple `(bus count, lines, generators, loads)`.
The original claim extended this to `n = 1`, where the code in fact raises:
see the counterexample below. -/
theorem generate_network_total (n : Nat) (g : RNG) (hn : 2 ≤ n) :
    ∃ r, generate_network n g = some r := by
  rcases htr : treeLoop (List.range' 1 (n - 1)) g with ⟨tree, g1⟩
  rcases Option.isSome_iff_exists.mp (extraLoop_isSome (max 1 (n / 3)) n g1 hn)
    with ⟨⟨extra, g2⟩, hex⟩
  rcases hld : loadLoop (List.range' 2 (n - 1)) g2 with ⟨loads0, total0, g3⟩
  exact ⟨_, generate_network_unfold htr hex hld⟩

/-- C1 witness: totality holds concretely at `n = 2`. -/
theorem generate_network_total_witness : ∃ r, generate_network 2 rng0 = some r :=
  generate_network_total 2 rng0 (by norm_num)

/-- C1 counterexample: at `n = 1` the extra-edges pass calls
`rng.integers(1, 1)` on the empty range `[1, 1)`, numpy raises `ValueError`,
and the function does not return — the claim fails for `n = 1`. -/
theorem generate_network_one_raises : generate_network 1 rng0 = none := by rfl

/-- C5: for every `n ≥ 2` and every stream the returned line list has
exactly `(n - 1) + max 1 (n / 3)` entries: `n - 1` spanning-tree lines plus
`max(1, n // 3)` extra edges. -/
theorem generate_network_line_count (n : Nat) (g : RNG) (hn : 2 ≤ n)
    (r : Nat × List Line × List (Nat × ℚ) × List (Nat × ℚ))
    (hr : generate_network n g = some r) :
    r.2.1.length = (n - 1) + max 1 (n / 3) := by
  obtain ⟨tree, g1, extra, g2, loads0, total0, g3, htr, hex, hld, hrEq⟩ :=
    generate_network_dest n g hn r hr
  subst hrEq
  have ht : tree.length = n - 1 := by
    have h := treeLoop_length (List.range' 1 (n - 1)) g
    rw [htr] at h
    simpa using h
  have he : extra.length = max 1 (n / 3) := extraLoop_length hex
  simp [List.length_append, ht, he]

/-- C5 witness: at `n = 2` the list has `(2-1) + max 1 (2/3) = 2` lines. -/
theorem generate_network_line_count_witness :
    net2.2.1.length = (2 - 1) + max 1 (2 / 3) :=
  generate_network_line_count 2 rng0 (by norm_num) net2 generate_network_two_eq

/-- C10: at `n = 2`, for every stream, the returned list has exactly two
lines and both connect bus 1 to bus 2 — the single extra edge necessarily
duplicates the spanning-tree edge, so parallel lines are kept, not
deduplicated. -/
theorem generate_network_two_parallel (g : RNG)
    (r : Nat × List Line × List (Nat × ℚ) × List (Nat × ℚ))
    (hr : generate_network 2 g = some r) :
    r.2.1.length = 2 ∧ ∀ l ∈ r.2.1, Line.ends l = (1, 2) := by
  obtain ⟨tree, g1, extra, g2, loads0, total0, g3, htr, hex, hld, hrEq⟩ :=
    generate_network_dest 2 g (by norm_num) r hr
  subst hrEq
  constructor
  · have ht : tree.length = 1 := by
      have h := treeLoop_length (List.range' 1 1) g
      rw [htr] at h
      simpa using h
    have he : extra.length = 1 := extraLoop_length hex
    simp [List.length_append, ht, he]
  · intro l hl
    simp only at hl
    rcases List.mem_append.mp hl with hT | hE
    · have hT2 : l ∈ (treeLoop (List.range' 1 1) g).1 := by
        rw [htr]
        exact hT
      rcases treeLoop_mem_ends hT2 with ⟨i, hi, hie⟩
      have : i = 1 := by simpa using hi
      rw [this] at hie
      exact hie
    · have hb := extraLoop_bounds hex l hE
      have h1 : l.1 = 1 := by omega
      have h2 : l.2.1 = 2 := by omega
      simp [Line.ends, h1, h2]

/-- C10 witness: the concrete `n = 2` run yields exactly two lines. -/
theorem generate_network_two_parallel_witness : net2.2.1.length = 2 :=
  (generate_network_two_parallel rng0 net2 generate_network_two_eq).1

/-- C2: for every `n ≥ 2` and every stream, the first `n - 1` returned
lines are exactly the consecutive pairs `(i, i+1)` for `i = 1..n-1` (the
spanning-tree pass), and the whole returned line list connects buses
`1..n`: every bus `v` with `1 ≤ v ≤ n` is reachable from bus 1. -/
theorem generate_network_spanning_tree (n : Nat) (g : RNG) (hn : 2 ≤ n)
    (r : Nat × List Line × List (Nat × ℚ) × List (Nat × ℚ))
    (hr : generate_network n g = some r) :
    (r.2.1.take (n - 1)).map Line.ends =
      (List.range' 1 (n - 1)).map (fun i => (i, i + 1)) ∧
    (∀ v, 1 ≤ v → v ≤ n → Reach r.2.1 1 v) := by
  obtain ⟨tree, g1, extra, g2, loads0, total0, g3, htr, hex, hld, hrEq⟩ :=
    generate_network_dest n g hn r hr
  subst hrEq
  have ht : tree.length = n - 1 := by
    have h := treeLoop_length (List.range' 1 (n - 1)) g
    rw [htr] at h
    simpa using h
  have hends : tree.map Line.ends = (List.range' 1 (n - 1)).map (fun i => (i, i + 1)) := by
    have h := treeLoop_ends (List.range' 1 (n - 1)) g
    rw [htr] at h
    exact h
  constructor
  · simp only
    rw [List.take_left' ht]
    exact hends
  · have htree : ∀ i, 1 ≤ i → i + 1 ≤ n →
        ∃ x, ((i, i + 1, x) : Line) ∈ tree ++ extra := by
      intro i hi1 hi2
      have hmem : i ∈ List.range' 1 (n - 1) := by
        rw [List.mem_range'_1]
        omega
      have : ∃ x, ((i, i + 1, x) : Line) ∈ (treeLoop (List.range' 1 (n - 1)) g).1 :=
        treeLoop_edge_mem hmem
      rcases this with ⟨x, hx⟩
      rw [htr] at hx
      exact ⟨x, List.mem_append_left _ hx⟩
    exact fun v hv1 hv2 => reach_along_path htree v hv1 hv2

/-- C2 witness: at `n = 2` on the all-zero stream, bus 2 is reachable
from bus 1 along the returned lines. -/
theorem generate_network_spanning_tree_witness : Reach net2.2.1 1 2 :=
  (generate_network_spanning_tree 2 rng0 (by norm_num) net2
    generate_network_two_eq).2 2 (by norm_num) (by norm_num)

/-- C7: for every `n ≥ 2` and every stream, every returned line
`(from, to, x)` has `1 ≤ from < to ≤ n` — endpoints in range, strictly
ordered, no self-loops — for tree lines and extra lines alike. -/
theorem generate_network_line_endpoints (n : Nat) (g : RNG) (hn : 2 ≤ n)
    (r : Nat × List Line × List (Nat × ℚ) × List (Nat × ℚ))
    (hr : generate_network n g = some r) :
    ∀ l ∈ r.2.1, 1 ≤ l.1 ∧ l.1 < l.2.1 ∧ l.2.1 ≤ n := by
  obtain ⟨tree, g1, extra, g2, loads0, total0, g3, htr, hex, hld, hrEq⟩ :=
    generate_network_dest n g hn r hr
  subst hrEq
  intro l hl
  simp only at hl
  rcases List.mem_append.mp hl with hT | hE
  · have hT2 : l ∈ (treeLoop (List.range' 1 (n - 1)) g).1 := by
      rw [htr]
      exact hT
    rcases treeLoop_mem_ends hT2 with ⟨i, hi, hie⟩
    rw [List.mem_range'_1] at hi
    rcases l with ⟨a, b, x⟩
    simp only [Line.ends, Prod.mk.injEq] at hie
    simp only
    omega
  · exact extraLoop_bounds hex l hE

/-- C7 witness: the first line of the concrete `n = 2` run satisfies
the endpoint bounds. -/
theorem generate_network_line_endpoints_witness :
    1 ≤ ((1, 2, 1/20) : Line).1 ∧ ((1, 2, 1/20) : Line).1 < ((1, 2, 1/20) : Line).2.1 ∧
      ((1, 2, 1/20) : Line).2.1 ≤ 2 :=
  generate_network_line_endpoints 2 rng0 (by norm_num) net2 generate_network_two_eq
    ((1, 2, 1/20) : Line) (by simp [net2])

/-- C3: for every `n ≥ 2` and every valid stream, bus 1 is in the
generator map and its capacity is exactly `1.1` times the sum of all load
values of the returned load map; consequently the capacity is at least the
total load. -/
theorem generate_network_slack (n : Nat) (g : RNG) (hn : 2 ≤ n)
    (hv : RNG.Valid g)
    (r : Nat × List Line × List (Nat × ℚ) × List (Nat × ℚ))
    (hr : generate_network n g = some r) :
    r.2.2.1.lookup 1 = some ((r.2.2.2.map Prod.snd).sum * 1.1) ∧
    (r.2.2.2.map Prod.snd).sum ≤ (r.2.2.1.lookup 1).getD 0 := by
  obtain ⟨tree, g1, extra, g2, loads0, total0, g3, htr, hex, hld, hrEq⟩ :=
    generate_network_dest n g hn r hr
  subst hrEq
  have hg1 : g1.reals = g.reals := by
    have h := treeLoop_reals (List.range' 1 (n - 1)) g
    rw [htr] at h
    exact h
  have hg2 : g2.reals = g.reals := by rw [extraLoop_reals hex, hg1]
  have hT : (if loads0.isEmpty then (200 : ℚ) else total0) =
      (((if loads0.isEmpty then [((2 : Nat), (200 : ℚ))] else loads0).map Prod.snd).sum) := by
    by_cases hE : loads0.isEmpty
    · simp [hE]
    · simp only [hE, if_neg, Bool.false_eq_true, if_false]
      have h := loadLoop_total (List.range' 2 (n - 1)) g2
      rw [hld] at h
      exact h
  have hS : (0 : ℚ) ≤
      (((if loads0.isEmpty then [((2 : Nat), (200 : ℚ))] else loads0).map Prod.snd).sum) := by
    by_cases hE : loads0.isEmpty
    · simp [hE]
    · simp only [hE, Bool.false_eq_true, if_false]
      apply List.sum_nonneg
      intro x hx
      rcases List.mem_map.mp hx with ⟨pb, hpb, hpbx⟩
      have hge : (50 : ℚ) ≤ pb.2 := by
        have hmem : pb ∈ (loadLoop (List.range' 2 (n - 1)) g2).1 := by
          rw [hld]
          exact hpb
        exact loadLoop_load_ge (fun k => by rw [hg2]; exact (hv k).1) pb hmem
      rw [← hpbx]
      linarith
  constructor
  · simp only [List.lookup_cons, beq_self_eq_true]
    rw [hT]
  · simp only [List.lookup_cons, beq_self_eq_true, Option.getD_some]
    rw [hT] at *
    set S := (((if loads0.isEmpty then [((2 : Nat), (200 : ℚ))] else loads0).map Prod.snd).sum)
    nlinarith [hS]

/-- C3 witness: the concrete `n = 2` run has capacity `220 = 1.1 × 200`
at bus 1 and `220 ≥ 200`. -/
theorem generate_network_slack_witness :
    net2.2.2.1.lookup 1 = some ((net2.2.2.2.map Prod.snd).sum * 1.1) ∧
    (net2.2.2.2.map Prod.snd).sum ≤ (net2.2.2.1.lookup 1).getD 0 :=
  generate_network_slack 2 rng0 (by norm_num)
    (fun _ => by constructor <;> norm_num [rng0]) net2 generate_network_two_eq

/-- C6: for every `n ≥ 2` and every stream, if the probabilistic load
pass returns no loads then the returned load map is exactly `{2 : 200}` and
bus 1 gets capacity `220 = 1.1 × 200`; if the pass returns at least one
load, the load map is exactly the pass output (no fallback entry). -/
theorem generate_network_fallback (n : Nat) (g : RNG) (_h0 : 2 ≤ n)
    (tree : List Line) (g1 : RNG) (extra : List Line) (g2 : RNG)
    (loads0 : List (Nat × ℚ)) (total0 : ℚ) (g3 : RNG)
    (h1 : treeLoop (List.range' 1 (n - 1)) g = (tree, g1))
    (h2 : extraLoop (max 1 (n / 3)) n g1 = some (extra, g2))
    (h3 : loadLoop (List.range' 2 (n - 1)) g2 = (loads0, total0, g3))
    (r : Nat × List Line × List (Nat × ℚ) × List (Nat × ℚ))
    (hr : generate_network n g = some r) :
    (loads0 = [] → r.2.2.2 = [(2, 200)] ∧ r.2.2.1.lookup 1 = some 220) ∧
    (loads0 ≠ [] → r.2.2.2 = loads0) := by
  have h := generate_network_unfold h1 h2 h3
  rw [hr] at h
  have hrEq := Option.some_inj.mp h
  subst hrEq
  constructor
  · rintro rfl
    refine ⟨by simp, ?_⟩
    simp only [List.isEmpty_nil, if_true, List.lookup_cons, beq_self_eq_true]
    norm_num
  · intro hne
    have hE : loads0.isEmpty = false := by
      rw [List.isEmpty_eq_false_iff_exists_mem]
      rcases loads0 with _ | ⟨p, rest⟩
      · exact absurd rfl hne
      · exact ⟨p, List.mem_cons_self _ _⟩
    simp [hE]

/-- C6 witness: on the all-zero stream at `n = 2` the pass assigns no
loads (`0 > 0.3` is false), so the fallback load map `{2 : 200}` and slack
capacity 220 appear. -/
theorem generate_network_fallback_witness :
    net2.2.2.2 = [(2, 200)] ∧ net2.2.2.1.lookup 1 = some 220 :=
  (generate_network_fallback 2 rng0 (by norm_num)
    [(1, 2, 1/20)] ⟨fun _ => 0, 1, fun _ => 0, 0⟩
    [(1, 2, 1/20)] ⟨fun _ => 0, 2, fun _ => 0, 2⟩
    [] 0 ⟨fun _ => 0, 3, fun _ => 0, 2⟩
    (by norm_num [treeLoop, RNG.random, rng0, List.range'])
    (by norm_num [extraLoop, RNG.integers, RNG.random, rng0, List.range'])
    (by norm_num [loadLoop, RNG.random, List.range'])
    net2 generate_network_two_eq).1 rfl

/-- C8: for every `n ≥ 2` and every stream, the generator buses are
exactly bus 1 together with the buses `2 + 4k ≤ n` (buses 2, 6, 10, ...),
and each bus of the form `2 + 4k ≤ n` has capacity
`0.5 × load(b) + 50`, with `load(b) = 0` when the bus has no load. -/
theorem generate_network_generators (n : Nat) (g : RNG) (hn : 2 ≤ n)
    (r : Nat × List Line × List (Nat × ℚ) × List (Nat × ℚ))
    (hr : generate_network n g = some r) :
    (∀ b, (∃ c, (b, c) ∈ r.2.2.1) ↔ (b = 1 ∨ ∃ k, b = 2 + 4 * k ∧ b ≤ n)) ∧
    (∀ b k, b = 2 + 4 * k → b ≤ n →
      r.2.2.1.lookup b = some (((r.2.2.2.lookup b).getD 0) * 0.5 + 50)) := by
  obtain ⟨tree, g1, extra, g2, loads0, total0, g3, htr, hex, hld, hrEq⟩ :=
    generate_network_dest n g hn r hr
  subst hrEq
  constructor
  · intro b
    constructor
    · rintro ⟨c, hc⟩
      rcases List.mem_cons.mp hc with h | h
      · left
        exact (Prod.mk.injEq _ _ _ _).mp h |>.1
      · right
        rcases List.mem_map.mp h with ⟨a, ha, hae⟩
        have hab : a = b := ((Prod.mk.injEq _ _ _ _).mp hae).1
        rw [← hab]
        exact genBuses_mem.mp ha
    · rintro (rfl | hk)
      · exact ⟨_, List.mem_cons_self _ _⟩
      · have hb : b ∈ genBuses n := genBuses_mem.mpr hk
        exact ⟨_, List.mem_cons_of_mem _ (List.mem_map_of_mem _ hb)⟩
  · intro b k hbk hbn
    have hb : b ∈ genBuses n := genBuses_mem.mpr ⟨k, hbk, hbn⟩
    have hb1 : (b == 1) = false := beq_false_of_ne (by omega)
    simp only [List.lookup_cons, hb1]
    exact lookup_map_self hb

/-- C8 witness: in the concrete `n = 2` run, bus `2 = 2 + 4·0` has
capacity `load(2) × 0.5 + 50`. -/
theorem generate_network_generators_witness :
    net2.2.2.1.lookup 2 = some (((net2.2.2.2.lookup 2).getD 0) * 0.5 + 50) :=
  (generate_network_generators 2 rng0 (by norm_num) net2
    generate_network_two_eq).2 2 0 rfl (by norm_num)

/-- C4: `generate_network` is a pure function of the bus count and the
seeded RNG state: two invocations whose RNG states carry the same streams
and cursors return identical results (lines, generators and loads alike),
and no state outside the passed RNG is read or written — the embedding is
pure by construction, mirroring the function-local `default_rng(seed)`. -/
theorem generate_network_deterministic (n : Nat) (g g' : RNG)
    (h1 : g.reals = g'.reals) (h2 : g.rIdx = g'.rIdx)
    (h3 : g.ints = g'.ints) (h4 : g.iIdx = g'.iIdx) :
    generate_network n g = generate_network n g' := by
  have hgg : g = g' := by
    obtain ⟨re, ri, ii, ij⟩ := g
    obtain ⟨re', ri', ii', ij'⟩ := g'
    simp_all
  rw [hgg]

/-- C4 witness: two syntactically distinct but equal RNG states give
the same network at `n = 2`. -/
theorem generate_network_deterministic_witness :
    generate_network 2 rng0 = generate_network 2 ⟨fun _ => 0, 0, fun _ => 0, 0⟩ :=
  generate_network_deterministic 2 rng0 ⟨fun _ => 0, 0, fun _ => 0, 0⟩ rfl rfl rfl rfl

/-- C9: the benchmark CSV is the header `module,n_buses,time_ms`
followed by exactly one row per (module, size) pair — every DC size in
order, then every LOPF size in order — whose time cell is the median of
that cell's measured run times, converted to milliseconds. -/
theorem benchmark_csv_rows (meas : String → Nat → Nat → ℚ) :
    csvRows meas = specCsvRows meas := by rfl
